import Mathlib

/-!
Shallow embedding of the code relationship graph engine from
`src/code-graph/src/index.js`, together with proofs settling the frozen
claims about it.

Modelling conventions:
* A JavaScript `Map` is modelled as an association list `List (String × α)`
  with unique keys maintained by the operations (insertion order preserved,
  `set` on an existing key updates in place, iteration follows list order).
* A JavaScript `Set` of freshly allocated objects (as used for edge records,
  which are compared by object identity) is modelled as a `List` to which
  `add` always appends.
* A JavaScript `Set` of strings (as used in the file index) is modelled as a
  duplicate-free `List String` where `add` appends only when absent.
* Strings, string concatenation and template literals are modelled by `String`.
* File-system and JSON-parsing effects are modelled by explicit state passing
  and `Except`, with a malformed persisted document represented abstractly.
-/

set_option maxRecDepth 10000

/-- Store-level metadata (source: the `metadata` object of `CodeGraph`).
The source initialises the timestamps from the current clock; the concrete
timestamp strings are irrelevant to every claim, so they are plain fields. -/
structure Metadata where
  createdAt : String
  updatedAt : String
  projectPath : Option String
deriving DecidableEq

/-- A symbol fact / node payload (source: the objects pushed to `symbols` in
`parseJavaScriptFile` and stored via `addNode`).  `stype` is the source field
`type` (one of `"function"`, `"class"`, `"variable"`, `"call"`), `superClass`
is the source field `extends` (absent or a possibly empty name).  Payload
fields that no resolution or query step ever reads (`params`, `async`,
`generator`, `methods`, `properties`, `kind`, `arguments`) are omitted. -/
structure SymFact where
  stype : String
  name : String
  file : String
  line : Nat
  superClass : Option String := none
deriving DecidableEq

/-- A forward edge record `{ to, type }` (source: `addEdge`). -/
structure Edge where
  dst : String
  ty : String
deriving DecidableEq

/-- A reverse edge record `{ from, type }` (source: `addEdge`). -/
structure RevEdge where
  src : String
  ty : String
deriving DecidableEq

/-- A flattened serialized edge `{ from, to, type }` (source: `toJSON`). -/
structure Edge3 where
  efrom : String
  eto : String
  etype : String
deriving DecidableEq

/-- A connection record returned by `getConnections`
(source: the objects pushed onto `result`). -/
structure Conn where
  efrom : String
  eto : String
  etype : String
  fromData : Option SymFact
  toData : Option SymFact
deriving DecidableEq

/-- The Graph Store (source: class `CodeGraph`). -/
structure CodeGraph where
  nodes : List (String × SymFact)
  edges : List (String × List Edge)
  reverseEdges : List (String × List RevEdge)
  fileIndex : List (String × List String)
  projectHash : Option String
  metadata : Metadata
deriving DecidableEq

/-- The serialized document produced by `CodeGraph.toJSON`. -/
structure GraphJSON where
  metadata : Metadata
  projectHash : Option String
  nodes : List (String × SymFact)
  edges : List Edge3
  fileIndex : List (String × List String)
deriving DecidableEq

/-- Association list membership test, mirroring `Map.has`. -/
def alHas {α : Type} : List (String × α) → String → Bool
  | [], _ => false
  | p :: rest, k => p.1 == k || alHas rest k

/-- Association list lookup, mirroring `Map.get`. -/
def alGet {α : Type} : List (String × α) → String → Option α
  | [], _ => none
  | p :: rest, k => if p.1 == k then some p.2 else alGet rest k

/-- Association list insert-or-update, mirroring `Map.set`: an existing key
keeps its position, a new key is appended at the end. -/
def alSet {α : Type} : List (String × α) → String → α → List (String × α)
  | [], k, v => [(k, v)]
  | p :: rest, k, v => if p.1 == k then (k, v) :: rest else p :: alSet rest k v

/-- Ensure a key is present (with `[]` as default) and append one element to
its value, mirroring the source idiom
`if (!m.has(k)) m.set(k, new Set()); m.get(k).add(e)` for object sets. -/
def alAppend {α : Type} : List (String × List α) → String → α → List (String × List α)
  | [], k, e => [(k, [e])]
  | p :: rest, k, e =>
    if p.1 == k then (p.1, p.2 ++ [e]) :: rest else p :: alAppend rest k e

/-- `Set.add` for a set of strings: append only when absent. -/
def jsSetAdd (l : List String) (a : String) : List String :=
  if a ∈ l then l else l ++ [a]

/-- `new Set(list)` for strings: first occurrences, in order. -/
def jsSetOfList (l : List String) : List String :=
  l.foldl jsSetAdd []

/-- The keys of an association list. -/
def keysOf {α : Type} (m : List (String × α)) : List String :=
  m.map Prod.fst

/-- Flatten a forward-edge map into serialized `{from, to, type}` triples
(the loop of `toJSON`). -/
def flatEdges (m : List (String × List Edge)) : List Edge3 :=
  m.flatMap fun p => p.2.map fun e => ⟨p.1, e.dst, e.ty⟩

/-- The multiset of edges of a store, as the flat triple list. -/
def edgeList (g : CodeGraph) : List Edge3 :=
  flatEdges g.edges

/-- The freshly constructed store (source: the `CodeGraph` constructor). -/
def CodeGraph.empty : CodeGraph :=
  { nodes := [], edges := [], reverseEdges := [], fileIndex := []
    projectHash := none
    metadata := { createdAt := "", updatedAt := "", projectPath := none } }

/-- Source: `CodeGraph.addNode`. -/
def CodeGraph.addNode (g : CodeGraph) (id : String) (data : SymFact) : CodeGraph :=
  { g with
    nodes := alSet g.nodes id data
    edges := if alHas g.edges id then g.edges else g.edges ++ [(id, [])]
    reverseEdges :=
      if alHas g.reverseEdges id then g.reverseEdges else g.reverseEdges ++ [(id, [])]
    fileIndex :=
      alSet g.fileIndex data.file (jsSetAdd ((alGet g.fileIndex data.file).getD []) id) }

/-- Source: `CodeGraph.addEdge`. -/
def CodeGraph.addEdge (g : CodeGraph) (frm dst ty : String) : CodeGraph :=
  { g with
    edges := alAppend g.edges frm ⟨dst, ty⟩
    reverseEdges := alAppend g.reverseEdges dst ⟨frm, ty⟩ }

/-- Outgoing edges of a node, `this.edges.get(nodeId) || new Set()`. -/
def outEdges (g : CodeGraph) (v : String) : List Edge :=
  (alGet g.edges v).getD []

/-- Incoming edges of a node, `this.reverseEdges.get(nodeId) || new Set()`. -/
def inEdges (g : CodeGraph) (v : String) : List RevEdge :=
  (alGet g.reverseEdges v).getD []

/-- The recursive worker of `getConnections` (source: the inner `traverse`
closure).  The fuel argument is `depth + 1 - currentDepth`; the source guard
`currentDepth > depth` is exactly fuel exhaustion, so the function is total by
structural recursion on the fuel — this is the depth bound that terminates the
recursion, with the visited check additionally preventing re-expansion. -/
def trav (g : CodeGraph) (dir : String) :
    Nat → String → List String × List Conn → List String × List Conn
  | 0, _, st => st
  | f + 1, v, st =>
    if v ∈ st.1 then st
    else
      let st1 := (st.1 ++ [v], st.2)
      let st2 :=
        if dir == "outgoing" || dir == "both" then
          (outEdges g v).foldl
            (fun s e =>
              trav g dir f e.dst
                (s.1, s.2 ++ [⟨v, e.dst, e.ty, alGet g.nodes v, alGet g.nodes e.dst⟩]))
            st1
        else st1
      if dir == "incoming" || dir == "both" then
        (inEdges g v).foldl
          (fun s e =>
            trav g dir f e.src
              (s.1, s.2 ++ [⟨e.src, v, e.ty, alGet g.nodes e.src, alGet g.nodes v⟩]))
          st2
      else st2

/-- Source: `CodeGraph.getConnections` (result list). -/
def CodeGraph.getConnections (g : CodeGraph) (id : String)
    (dir : String := "both") (depth : Nat := 1) : List Conn :=
  (trav g dir (depth + 1) id ([], [])).2

/-- The visited set produced by a `getConnections` call. -/
def CodeGraph.visitedOf (g : CodeGraph) (id : String)
    (dir : String) (depth : Nat) : List String :=
  (trav g dir (depth + 1) id ([], [])).1

/-- Lowercasing, modelling `String.prototype.toLowerCase` (ASCII letters,
which is what `Char.toLower` lowers; the source symbols are ASCII). -/
def lowerStr (s : String) : String :=
  String.mk (s.data.map Char.toLower)

/-- Prefix test on character lists. -/
def isPref : List Char → List Char → Bool
  | [], _ => true
  | _ :: _, [] => false
  | a :: as, b :: bs => a == b && isPref as bs

/-- Substring test `hasSub s sub`, modelling `s.includes(sub)`. -/
def hasSub (s : List Char) (sub : List Char) : Bool :=
  match s with
  | [] => isPref sub []
  | _ :: rest => isPref sub s || hasSub rest sub

/-- Whether a node name matches the query, after lowercasing both
(source: `nameMatch` in `searchNodes`). -/
def nameMatches (query : String) (n : SymFact) : Bool :=
  hasSub (lowerStr n.name).data (lowerStr query).data

/-- Whether a node file path matches the query, after lowercasing both
(source: `fileMatch` in `searchNodes`). -/
def fileMatches (query : String) (n : SymFact) : Bool :=
  hasSub (lowerStr n.file).data (lowerStr query).data

/-- A search result `{ id, ...node, score }` (source: `searchNodes`). -/
structure SearchResult where
  id : String
  node : SymFact
  score : Nat
deriving DecidableEq

/-- The unsorted match list of `searchNodes`: the loop over `this.nodes` with
the truthy type filter (`if (type && node.type !== type) continue`) and the
score assignment. -/
def searchMatches (g : CodeGraph) (query : String) (ty : Option String) :
    List SearchResult :=
  g.nodes.filterMap fun p =>
    if (match ty with | none => false | some t => t != "" && p.2.stype != t) then
      none
    else if nameMatches query p.2 || fileMatches query p.2 then
      some ⟨p.1, p.2, if nameMatches query p.2 then 2 else 1⟩
    else
      none

/-- Stable insertion for a descending-by-score sort: an element is placed
before the first strictly smaller score, after equal scores. -/
def insertByScore (x : SearchResult) : List SearchResult → List SearchResult
  | [] => [x]
  | y :: ys => if x.score ≥ y.score then x :: y :: ys else y :: insertByScore x ys

/-- Stable descending sort by score, the observable behaviour of
`results.sort((a, b) => b.score - a.score)` (JavaScript array sort is
stable and this comparator orders by score descending). -/
def sortByScoreDesc : List SearchResult → List SearchResult
  | [] => []
  | x :: xs => insertByScore x (sortByScoreDesc xs)

/-- Source: `CodeGraph.searchNodes`. -/
def CodeGraph.searchNodes (g : CodeGraph) (query : String)
    (ty : Option String := none) : List SearchResult :=
  sortByScoreDesc (searchMatches g query ty)

/-- Source: `CodeGraph.toJSON`.  A node entry `{ id, ...data }` is the pair of
the id and the payload (the payload has no `id` field of its own). -/
def CodeGraph.toJSON (g : CodeGraph) : GraphJSON :=
  { metadata := g.metadata
    projectHash := g.projectHash
    nodes := g.nodes
    edges := flatEdges g.edges
    fileIndex := g.fileIndex }

/-- One step of the node-loading loop of `fromJSON`: store the payload under
the id and ensure empty forward and reverse edge sets. -/
def loadNodeJSON (g : CodeGraph) (p : String × SymFact) : CodeGraph :=
  { g with
    nodes := alSet g.nodes p.1 p.2
    edges := if alHas g.edges p.1 then g.edges else g.edges ++ [(p.1, [])]
    reverseEdges :=
      if alHas g.reverseEdges p.1 then g.reverseEdges
      else g.reverseEdges ++ [(p.1, [])] }

/-- One step of the edge-loading loop of `fromJSON`: append the edge record to
the forward map of `from` and the reverse map of `to`. -/
def loadEdgeJSON (g : CodeGraph) (e : Edge3) : CodeGraph :=
  { g with
    edges := alAppend g.edges e.efrom ⟨e.eto, e.etype⟩
    reverseEdges := alAppend g.reverseEdges e.eto ⟨e.efrom, e.etype⟩ }

/-- Source: `CodeGraph.fromJSON` (static).  Nodes are loaded first (creating
empty forward and reverse edge sets), then edges are appended pairwise to the
forward and reverse maps, then the file index entries are set from
`new Set(entry.nodeIds)`. -/
def CodeGraph.fromJSON (d : GraphJSON) : CodeGraph :=
  let g1 : CodeGraph :=
    { CodeGraph.empty with metadata := d.metadata, projectHash := d.projectHash }
  let g2 := d.nodes.foldl loadNodeJSON g1
  let g3 := d.edges.foldl loadEdgeJSON g2
  { g3 with
    fileIndex := d.fileIndex.foldl (fun fi p => alSet fi p.1 (jsSetOfList p.2)) g3.fileIndex }

/-- Normalize the segments of a relative path: empty and `.` segments are
dropped, `..` pops the previous real segment (leading `..` segments are kept).
This is the normalization step of Node `path.join` for relative posix paths. -/
def normalizeSegs : List String → List String → List String
  | acc, [] => acc.reverse
  | acc, s :: rest =>
    if s == "" || s == "." then normalizeSegs acc rest
    else if s == ".." then
      match acc with
      | [] => normalizeSegs [".."] rest
      | t :: acc2 =>
        if t == ".." then normalizeSegs (".." :: t :: acc2) rest
        else normalizeSegs acc2 rest
    else normalizeSegs (s :: acc) rest

/-- Split a character list at `/` separators. -/
def splitSlashAux : List Char → List Char → List String
  | [], acc => [String.mk acc.reverse]
  | c :: rest, acc =>
    if c == '/' then String.mk acc.reverse :: splitSlashAux rest []
    else splitSlashAux rest (c :: acc)

/-- Split a path string into its `/`-separated segments. -/
def splitSlash (s : String) : List String :=
  splitSlashAux s.data []

/-- Join segments with `/` separators. -/
def joinSegs : List String → String
  | [] => ""
  | [s] => s
  | s :: rest => s ++ "/" ++ joinSegs rest

/-- Node `path.join(a, b)` for relative posix paths: concatenate with `/`,
normalize, and return `.` for an empty result. -/
def joinPath (a b : String) : String :=
  let joined := if a == "" then b else if b == "" then a else a ++ "/" ++ b
  let segs := normalizeSegs [] (splitSlash joined)
  if segs.isEmpty then "." else joinSegs segs

/-- Node `path.dirname` for relative posix paths: everything before the last
`/`, or `.` when there is none. -/
def dirname (p : String) : String :=
  let parts := splitSlash p
  if parts.length ≤ 1 then "." else joinSegs (parts.dropLast)

/-- The `replace(/^\.\//, '')` normalization applied to each candidate. -/
def stripDotSlash (s : String) : String :=
  if isPref ("./".data) s.data then String.mk (s.data.drop 2) else s

/-- Per-file facts as consumed by the build (source: the return value of
`parseJavaScriptFile`: `{ symbols, imports, exports }`). -/
structure ImportFact where
  source : String
  imported : String
  localName : String
  line : Nat
deriving DecidableEq

/-- An export fact; only the exported name is read by resolution. -/
structure ExportFact where
  exported : String
  line : Nat
deriving DecidableEq

/-- The facts extracted from one file. -/
structure ParsedFile where
  symbols : List SymFact
  imports : List ImportFact
  exports : List ExportFact
deriving DecidableEq

/-- The `fileData` map of `buildCodeGraph`, abstracting the parse phase. -/
abbrev FileData := List (String × ParsedFile)

/-- The composite node id `` `${file}:${name}:${line}` ``. -/
def mkNodeId (file name : String) (line : Nat) : String :=
  file ++ ":" ++ name ++ ":" ++ toString line

/-- Phase 1 of `buildCodeGraph` for one file: every non-`call` symbol becomes
a node keyed by its composite id. -/
def addFileNodes (g : CodeGraph) (fd : String × ParsedFile) : CodeGraph :=
  fd.2.symbols.foldl
    (fun g s =>
      if s.stype != "call" then g.addNode (mkNodeId fd.1 s.name s.line) s else g)
    g

/-- The candidate resolved paths for a relative import (source: the
`possibleFiles` array), in source order. -/
def importCandidates (file source : String) : List String :=
  let rp := joinPath (dirname file) source
  [rp ++ ".js", rp ++ ".ts", rp ++ ".jsx", rp ++ ".tsx",
   rp ++ "/index.js", rp ++ "/index.ts"]

/-- The candidate loop: normalize each candidate, stop at the first one that
is a key of `fileData` (the `break` in the source). -/
def firstExisting (fileData : FileData) : List String → Option String
  | [] => none
  | c :: cs =>
    let n := stripDotSlash c
    if alHas fileData n then some n else firstExisting fileData cs

/-- The resolved target file of a relative import, if any. -/
def findCandidate (fileData : FileData) (file source : String) : Option String :=
  firstExisting fileData (importCandidates file source)

/-- Import resolution for one file (source: the first inner loop of the
relationship phase of `buildCodeGraph`). -/
def resolveImports (fileData : FileData) (file : String) (data : ParsedFile)
    (g : CodeGraph) : CodeGraph :=
  data.imports.foldl
    (fun g imp =>
      if imp.source.startsWith "." then
        match findCandidate fileData file imp.source with
        | none => g
        | some normalizedPath =>
          match alGet fileData normalizedPath with
          | none => g
          | some targetData =>
            targetData.symbols.foldl
              (fun g sym =>
                if sym.name == imp.localName
                    || (imp.imported == "default"
                        && targetData.exports.any (fun e => e.exported == "default")) then
                  let fromId := file ++ ":import:" ++ toString imp.line
                  let toId := mkNodeId normalizedPath sym.name sym.line
                  if alHas g.nodes toId then g.addEdge fromId toId "imports" else g
                else g)
              g
      else g)
    g

/-- The innermost loop of call resolution: scan one file entry for `function`
symbols whose name equals the callee name, adding a guarded `calls` edge for
each (source: the loop over `otherData.symbols`). -/
def resolveCallTarget (callerId callName : String) (g : CodeGraph)
    (other : String × ParsedFile) : CodeGraph :=
  other.2.symbols.foldl
    (fun g osym =>
      if osym.stype == "function" && osym.name == callName then
        let targetId := mkNodeId other.1 osym.name osym.line
        if alHas g.nodes targetId then g.addEdge callerId targetId "calls"
        else g
      else g)
    g

/-- Call resolution for one symbol fact: a `call` symbol is linked from the
synthetic id `` `${file}:${line}` `` against every file entry (source: the
loop over `fileData` inside the `call` branch). -/
def resolveCallSym (fileData : FileData) (file : String) (g : CodeGraph)
    (sym : SymFact) : CodeGraph :=
  if sym.stype == "call" then
    fileData.foldl (resolveCallTarget (file ++ ":" ++ toString sym.line) sym.name) g
  else g

/-- Call resolution for one file (source: the second inner loop of the
relationship phase of `buildCodeGraph`). -/
def resolveCalls (fileData : FileData) (file : String) (data : ParsedFile)
    (g : CodeGraph) : CodeGraph :=
  data.symbols.foldl (resolveCallSym fileData file) g

/-- Inheritance resolution for one file (source: the third inner loop of the
relationship phase).  The source condition `symbol.extends` is JavaScript
truthiness: present and nonempty. -/
def resolveExtends (fileData : FileData) (file : String) (data : ParsedFile)
    (g : CodeGraph) : CodeGraph :=
  data.symbols.foldl
    (fun g sym =>
      match sym.superClass with
      | none => g
      | some sup =>
        if sym.stype == "class" && sup != "" then
          let classId := mkNodeId file sym.name sym.line
          fileData.foldl
            (fun g other =>
              other.2.symbols.foldl
                (fun g osym =>
                  if osym.stype == "class" && osym.name == sup then
                    let parentId := mkNodeId other.1 osym.name osym.line
                    if alHas g.nodes parentId then g.addEdge classId parentId "extends"
                    else g
                  else g)
                g)
            g
        else g)
    g

/-- Phase 1 of `buildCodeGraph`: all nodes of all files. -/
def buildNodes (fileData : FileData) : CodeGraph :=
  fileData.foldl addFileNodes CodeGraph.empty

/-- Source: `buildCodeGraph`, from the parsed `fileData` map onwards (the file
discovery, reading and parsing that fill `fileData` are the external fact
extractor).  Per file: import resolution, then call resolution, then
inheritance resolution. -/
def buildCodeGraph (fileData : FileData) : CodeGraph :=
  fileData.foldl
    (fun g fd =>
      resolveExtends fileData fd.1 fd.2
        (resolveCalls fileData fd.1 fd.2
          (resolveImports fileData fd.1 fd.2 g)))
    (buildNodes fileData)

/-- Stand-in for `generateProjectHash` (an md5 hex digest of the project path
in the source); the claims only use that it is a deterministic function of the
path, so the path itself serves as the digest. -/
def generateProjectHash (projectPath : String) : String :=
  projectPath

/-- The cache entry path `path.join(config.dbPath, 'graph_' + hash + '.json')`
with the default `dbPath` of `./db`. -/
def graphFilePath (projectPath : String) : String :=
  joinPath "./db" ("graph_" ++ generateProjectHash projectPath ++ ".json")

/-- File-system errors distinguished by the persistence layer. -/
inductive FsError
  | enoent
  | other
deriving DecidableEq

/-- `fs.unlink` on a file-system state modelled as the list of existing
paths: error `ENOENT` when the path does not exist. -/
def unlinkFs (fs : List String) (p : String) : Except FsError (List String) :=
  if p ∈ fs then .ok (fs.erase p) else .error .enoent

/-- Source: `deleteGraph`.  `ENOENT` is caught and reported as `false`;
any other error is re-thrown. -/
def deleteGraph (fs : List String) (projectPath : String) :
    Except FsError (List String × Bool) :=
  match unlinkFs fs (graphFilePath projectPath) with
  | .ok fs2 => .ok (fs2, true)
  | .error .enoent => .ok (fs, false)
  | .error e => .error e

/-- The reply of the `clear_cache` tool handler. -/
structure ToolReply where
  success : Bool
  message : String
deriving DecidableEq

/-- Source: the `clear_cache` handler for a provided project path. -/
def clearCacheHandler (fs : List String) (projectPath : String) :
    Except FsError (List String × ToolReply) :=
  match deleteGraph fs projectPath with
  | .ok (fs2, deleted) =>
    .ok (fs2,
      ⟨deleted,
        if deleted then "Cache cleared for project" else "No cache found for project"⟩)
  | .error e => .error e

/-- A persisted cache document as seen by `loadGraph`: either a document the
parse step reconstructs, or a malformed one on which `JSON.parse` (or the
subsequent field accesses) throws. -/
inductive CacheDoc
  | malformed
  | parsed (d : GraphJSON)
deriving DecidableEq

/-- Source: `loadGraph`.  The cache file is read (`ENOENT` is caught and
reported as `false`), parsed and deserialized; only when all of that succeeds
is the global store replaced.  The pair is (store after the call, returned
boolean), with `current` the store loaded before the call. -/
def loadGraph (cacheFs : List (String × CacheDoc)) (current : CodeGraph)
    (projectPath : String) : CodeGraph × Bool :=
  match alGet cacheFs (graphFilePath projectPath) with
  | none => (current, false)
  | some .malformed => (current, false)
  | some (.parsed d) => (CodeGraph.fromJSON d, true)

/-- Directed reachability within a hop bound, following the same adjacency
that `getConnections` traverses for the given direction string. -/
def neighbors (g : CodeGraph) (dir : String) (v : String) : List String :=
  (if dir == "outgoing" || dir == "both" then (outEdges g v).map (·.dst) else [])
    ++ (if dir == "incoming" || dir == "both" then (inEdges g v).map (·.src) else [])

/-- `reachableWithin g dir s t n` : `t` is reachable from `s` in at most `n`
hops along the adjacency used by `getConnections` for direction `dir`. -/
def reachableWithin (g : CodeGraph) (dir : String) : String → String → Nat → Bool
  | s, t, 0 => s == t
  | s, t, n + 1 =>
    s == t || (neighbors g dir s).any fun m => reachableWithin g dir m t n

/-! ## Generic fold lemmas -/

/-- A predicate preserved by every step of a fold holds of the result. -/
theorem foldl_pres {α β : Type} {P : β → Prop} {F : β → α → β} :
    ∀ {l : List α}, (∀ b, ∀ a ∈ l, P b → P (F b a)) → ∀ {b}, P b → P (l.foldl F b)
  | [], _, _, hb => hb
  | x :: l, h, b, hb => by
    simpa using foldl_pres (l := l)
      (fun b a ha => h b a (List.mem_cons_of_mem _ ha))
      (h b x (List.mem_cons_self _ _) hb)

/-- If an invariant `P` is preserved by every step, a monotone goal `Q` is
preserved by every step, and the step at some list element `a` establishes `Q`
from `P`, then the fold over any list containing `a` establishes `Q`. -/
theorem foldl_attain {α β : Type} {P Q : β → Prop} {F : β → α → β} :
    ∀ {l : List α} {a : α}, a ∈ l →
      (∀ b, ∀ x ∈ l, P b → P (F b x)) →
      (∀ b, ∀ x ∈ l, Q b → Q (F b x)) →
      (∀ b, P b → Q (F b a)) →
      ∀ {b}, P b → Q (l.foldl F b)
  | x :: l, a, ha, hP, hQ, hstep, b, hb => by
    rcases List.mem_cons.mp ha with rfl | ha2
    · have hq : Q (F b a) := hstep b hb
      simpa using foldl_pres (P := Q) (l := l)
        (fun b x hx => hQ b x (List.mem_cons_of_mem _ hx)) hq
    · have hp : P (F b x) := hP b x (List.mem_cons_self _ _) hb
      simpa using foldl_attain (l := l) ha2
        (fun b y hy => hP b y (List.mem_cons_of_mem _ hy))
        (fun b y hy => hQ b y (List.mem_cons_of_mem _ hy))
        hstep hp

/-- A fold whose steps act on a projected component commutes with the
projection. -/
theorem foldl_proj {α β γ : Type} (proj : β → γ) (F : β → α → β) (f : γ → α → γ)
    (h : ∀ b a, proj (F b a) = f (proj b) a) :
    ∀ (l : List α) (b : β), proj (l.foldl F b) = l.foldl f (proj b)
  | [], _ => rfl
  | x :: l, b => by
    simp only [List.foldl_cons, foldl_proj proj F f h l, h]

/-! ## Association list lemmas -/

theorem alHas_iff_mem {α : Type} :
    ∀ (m : List (String × α)) (k : String), alHas m k = true ↔ k ∈ keysOf m
  | [], k => by simp [alHas, keysOf]
  | p :: rest, k => by
    simp only [alHas, keysOf, List.map_cons, List.mem_cons, Bool.or_eq_true, beq_iff_eq,
      alHas_iff_mem rest k]
    constructor
    · rintro (h | h)
      · exact Or.inl h.symm
      · exact Or.inr h
    · rintro (h | h)
      · exact Or.inl h.symm
      · exact Or.inr h

theorem alHas_append {α : Type} (m1 m2 : List (String × α)) (k : String) :
    alHas (m1 ++ m2) k = (alHas m1 k || alHas m2 k) := by
  induction m1 with
  | nil => simp [alHas]
  | cons p rest ih => simp [alHas, ih, Bool.or_assoc]

theorem alSet_of_not_has {α : Type} (m : List (String × α)) (k : String) (v : α)
    (h : alHas m k = false) : alSet m k v = m ++ [(k, v)] := by
  induction m with
  | nil => simp [alSet]
  | cons p rest ih =>
    simp only [alHas, Bool.or_eq_false_iff] at h
    simp [alSet, h.1, ih h.2]

theorem alHas_alSet_self {α : Type} (m : List (String × α)) (k : String) (v : α) :
    alHas (alSet m k v) k = true := by
  induction m with
  | nil => simp [alSet, alHas]
  | cons p rest ih =>
    by_cases h : p.1 = k
    · simp [alSet, alHas, h]
    · simp only [alSet, beq_iff_eq, h, if_false, alHas, ih, Bool.or_true]

theorem alHas_alSet_mono {α : Type} (m : List (String × α)) (k k2 : String) (v : α)
    (h : alHas m k2 = true) : alHas (alSet m k v) k2 = true := by
  induction m with
  | nil => simp [alHas] at h
  | cons p rest ih =>
    simp only [alHas, Bool.or_eq_true] at h
    by_cases hp : p.1 = k
    · rcases h with h | h
      · simp only [beq_iff_eq] at h
        simp [alSet, hp, alHas, hp ▸ h]
      · simp [alSet, hp, alHas, ih, h]
    · rcases h with h | h
      · simp [alSet, hp, alHas, h]
      · simp [alSet, hp, alHas, ih h]

/-- The fold that `set`s a fresh batch of entries appends them in order. -/
theorem foldl_alSet_fresh {α β : Type} (vf : String × α → β) :
    ∀ (l : List (String × α)) (acc : List (String × β)),
      (keysOf l).Nodup → (∀ k ∈ keysOf l, alHas acc k = false) →
      l.foldl (fun m p => alSet m p.1 (vf p)) acc = acc ++ l.map (fun p => (p.1, vf p))
  | [], acc, _, _ => by simp
  | p :: l, acc, hnd, hfresh => by
    have hp : alHas acc p.1 = false := hfresh p.1 (by simp [keysOf])
    have hnd2 : (keysOf l).Nodup := by
      simpa [keysOf] using hnd.of_cons
    have hfresh2 : ∀ k ∈ keysOf l, alHas (acc ++ [(p.1, vf p)]) k = false := by
      intro k hk
      have hk1 : alHas acc k = false := hfresh k (by simp [keysOf]; right; simpa [keysOf] using hk)
      have hk2 : p.1 ≠ k := by
        intro h
        have : p.1 ∉ keysOf l := by
          have := hnd
          simp only [keysOf, List.map_cons, List.nodup_cons] at this
          simpa [keysOf] using this.1
        exact this (h ▸ hk)
      simp [alHas_append, hk1, alHas, hk2]
    simp only [List.foldl_cons, alSet_of_not_has acc p.1 (vf p) hp]
    rw [foldl_alSet_fresh vf l (acc ++ [(p.1, vf p)]) hnd2 hfresh2]
    simp

/-- Adding a fresh batch of strings to an empty set keeps them in order. -/
theorem foldl_jsSetAdd_fresh :
    ∀ (l acc : List String), l.Nodup → (∀ a ∈ l, a ∉ acc) →
      l.foldl jsSetAdd acc = acc ++ l
  | [], acc, _, _ => by simp
  | a :: l, acc, hnd, hfresh => by
    have ha : a ∉ acc := hfresh a (by simp)
    have : jsSetAdd acc a = acc ++ [a] := by simp [jsSetAdd, ha]
    simp only [List.foldl_cons, this]
    rw [foldl_jsSetAdd_fresh l (acc ++ [a]) hnd.of_cons]
    · simp
    · intro x hx
      simp only [List.mem_append, List.mem_singleton]
      rintro (h | rfl)
      · exact hfresh x (by simp [hx]) h
      · exact (List.nodup_cons.mp hnd).1 hx

theorem jsSetOfList_of_nodup (l : List String) (h : l.Nodup) : jsSetOfList l = l := by
  simpa [jsSetOfList] using foldl_jsSetAdd_fresh l [] h (by simp)

/-! ## Flattened edge lemmas -/

theorem flatEdges_append (m1 m2 : List (String × List Edge)) :
    flatEdges (m1 ++ m2) = flatEdges m1 ++ flatEdges m2 := by
  simp [flatEdges]

theorem count_flatEdges_alAppend (m : List (String × List Edge)) (k : String)
    (e : Edge) (x : Edge3) :
    (flatEdges (alAppend m k e)).count x
      = (flatEdges m ++ [(⟨k, e.dst, e.ty⟩ : Edge3)]).count x := by
  induction m with
  | nil => simp [alAppend, flatEdges]
  | cons p rest ih =>
    by_cases h : p.1 = k
    · simp only [alAppend, h, beq_self_eq_true, if_true, flatEdges, List.flatMap_cons,
        List.map_append, List.count_append, List.map_cons, List.map_nil]
      simp only [flatEdges] at *
      omega
    · simp only [alAppend, beq_iff_eq, h, if_false, flatEdges, List.flatMap_cons,
        List.count_append]
      simp only [flatEdges] at ih
      rw [ih]
      simp [List.count_append]
      omega

theorem flatEdges_alAppend (m : List (String × List Edge)) (k : String) (e : Edge) :
    (flatEdges (alAppend m k e)).Perm (flatEdges m ++ [(⟨k, e.dst, e.ty⟩ : Edge3)]) := by
  rw [List.perm_iff_count]
  intro x
  exact count_flatEdges_alAppend m k e x

theorem mem_edgeList_addEdge {x : Edge3} (g : CodeGraph) (a b t : String) :
    x ∈ edgeList (g.addEdge a b t) ↔ x ∈ edgeList g ∨ x = ⟨a, b, t⟩ := by
  have h := flatEdges_alAppend g.edges a ⟨b, t⟩
  constructor
  · intro hx
    have := h.mem_iff.mp hx
    simpa using this
  · intro hx
    apply h.mem_iff.mpr
    rcases hx with hx | rfl
    · exact List.mem_append_left _ hx
    · simp

theorem nodes_addEdge (g : CodeGraph) (a b t : String) :
    (g.addEdge a b t).nodes = g.nodes := rfl

theorem edgeList_addNode (g : CodeGraph) (id : String) (d : SymFact) :
    edgeList (g.addNode id d) = edgeList g := by
  unfold CodeGraph.addNode edgeList
  by_cases h : alHas g.edges id = true
  · simp [h]
  · simp only [Bool.not_eq_true] at h
    simp [h, flatEdges_append, flatEdges]

/-! ## Node-map facts about the build phases -/

theorem alHas_nodes_addNode_self (g : CodeGraph) (id : String) (d : SymFact) :
    alHas (g.addNode id d).nodes id = true :=
  alHas_alSet_self g.nodes id d

theorem alHas_nodes_addNode_mono (g : CodeGraph) (id k : String) (d : SymFact)
    (h : alHas g.nodes k = true) : alHas (g.addNode id d).nodes k = true :=
  alHas_alSet_mono g.nodes id k d h

theorem alHas_nodes_addFileNodes_mono (g : CodeGraph) (fd : String × ParsedFile)
    (k : String) (h : alHas g.nodes k = true) :
    alHas (addFileNodes g fd).nodes k = true := by
  unfold addFileNodes
  refine foldl_pres (P := fun (x : CodeGraph) => alHas x.nodes k = true) ?_ h
  intro b s _ hb
  dsimp only
  split
  · exact alHas_nodes_addNode_mono b _ k s hb
  · exact hb

/-- Every non-call symbol of every file is a node of the phase-1 store. -/
theorem nodes_buildNodes_has (fd : FileData) (f : String) (d : ParsedFile)
    (s : SymFact) (hfd : (f, d) ∈ fd) (hs : s ∈ d.symbols) (ht : s.stype ≠ "call") :
    alHas (buildNodes fd).nodes (mkNodeId f s.name s.line) = true := by
  unfold buildNodes
  refine foldl_attain (P := fun _ => True)
    (Q := fun (x : CodeGraph) => alHas x.nodes (mkNodeId f s.name s.line) = true)
    hfd (fun _ _ _ _ => trivial) ?_ ?_ trivial
  · intro b x _ hb
    exact alHas_nodes_addFileNodes_mono b x _ hb
  · intro b _
    unfold addFileNodes
    refine foldl_attain (P := fun _ => True)
      (Q := fun (x : CodeGraph) => alHas x.nodes (mkNodeId f s.name s.line) = true)
      hs (fun _ _ _ _ => trivial) ?_ ?_ trivial
    · intro b2 s2 _ hb2
      dsimp only
      split
      · exact alHas_nodes_addNode_mono b2 _ _ s2 hb2
      · exact hb2
    · intro b2 _
      dsimp only
      have hcond : (s.stype != "call") = true := by
        simpa using ht
      rw [if_pos hcond]
      exact alHas_nodes_addNode_self b2 _ s

theorem nodes_resolveImports (fd : FileData) (f : String) (d : ParsedFile)
    (g : CodeGraph) : (resolveImports fd f d g).nodes = g.nodes := by
  unfold resolveImports
  refine foldl_pres (P := fun (x : CodeGraph) => x.nodes = g.nodes) ?_ rfl
  intro b imp _ hb
  dsimp only
  split
  · split
    · exact hb
    · split
      · exact hb
      · refine foldl_pres (P := fun (x : CodeGraph) => x.nodes = g.nodes) ?_ hb
        intro b2 sym _ hb2
        dsimp only
        split
        · split
          · exact hb2
          · exact hb2
        · exact hb2
  · exact hb

theorem nodes_resolveCallTarget (callerId callName : String) (g : CodeGraph)
    (other : String × ParsedFile) :
    (resolveCallTarget callerId callName g other).nodes = g.nodes := by
  unfold resolveCallTarget
  refine foldl_pres (P := fun (x : CodeGraph) => x.nodes = g.nodes) ?_ rfl
  intro b osym _ hb
  dsimp only
  split
  · split
    · exact hb
    · exact hb
  · exact hb

theorem nodes_resolveCallSym (fd : FileData) (f : String) (g : CodeGraph)
    (sym : SymFact) : (resolveCallSym fd f g sym).nodes = g.nodes := by
  unfold resolveCallSym
  split
  · refine foldl_pres (P := fun (x : CodeGraph) => x.nodes = g.nodes) ?_ rfl
    intro b other _ hb
    rw [nodes_resolveCallTarget]
    exact hb
  · rfl

theorem nodes_resolveCalls (fd : FileData) (f : String) (d : ParsedFile)
    (g : CodeGraph) : (resolveCalls fd f d g).nodes = g.nodes := by
  unfold resolveCalls
  refine foldl_pres (P := fun (x : CodeGraph) => x.nodes = g.nodes) ?_ rfl
  intro b sym _ hb
  rw [nodes_resolveCallSym]
  exact hb

theorem nodes_resolveExtends (fd : FileData) (f : String) (d : ParsedFile)
    (g : CodeGraph) : (resolveExtends fd f d g).nodes = g.nodes := by
  unfold resolveExtends
  refine foldl_pres (P := fun (x : CodeGraph) => x.nodes = g.nodes) ?_ rfl
  intro b sym _ hb
  dsimp only
  split
  · exact hb
  · split
    · refine foldl_pres (P := fun (x : CodeGraph) => x.nodes = g.nodes) ?_ hb
      intro b2 other _ hb2
      refine foldl_pres (P := fun (x : CodeGraph) => x.nodes = g.nodes) ?_ hb2
      intro b3 osym _ hb3
      dsimp only
      split
      · split
        · exact hb3
        · exact hb3
      · exact hb3
    · exact hb

/-- The node map of the fully built store is the phase-1 node map: the
relationship phase only adds edges. -/
theorem nodes_buildCodeGraph (fd : FileData) :
    (buildCodeGraph fd).nodes = (buildNodes fd).nodes := by
  unfold buildCodeGraph
  refine foldl_pres (P := fun (x : CodeGraph) => x.nodes = (buildNodes fd).nodes) ?_ rfl
  intro b x _ hb
  rw [nodes_resolveExtends, nodes_resolveCalls, nodes_resolveImports]
  exact hb

/-! ## Edge membership monotonicity through the build -/

theorem edge_mem_addEdge {x : Edge3} (g : CodeGraph) (a b t : String)
    (h : x ∈ edgeList g) : x ∈ edgeList (g.addEdge a b t) :=
  (mem_edgeList_addEdge g a b t).mpr (Or.inl h)

theorem edge_mem_resolveImports {x : Edge3} (fd : FileData) (f : String)
    (d : ParsedFile) (g : CodeGraph) (h : x ∈ edgeList g) :
    x ∈ edgeList (resolveImports fd f d g) := by
  unfold resolveImports
  refine foldl_pres (P := fun gg => x ∈ edgeList gg) ?_ h
  intro b imp _ hb
  dsimp only
  split
  · split
    · exact hb
    · split
      · exact hb
      · refine foldl_pres (P := fun gg => x ∈ edgeList gg) ?_ hb
        intro b2 sym _ hb2
        dsimp only
        split
        · split
          · exact edge_mem_addEdge b2 _ _ _ hb2
          · exact hb2
        · exact hb2
  · exact hb

theorem edge_mem_resolveCallTarget {x : Edge3} (callerId callName : String)
    (g : CodeGraph) (other : String × ParsedFile) (h : x ∈ edgeList g) :
    x ∈ edgeList (resolveCallTarget callerId callName g other) := by
  unfold resolveCallTarget
  refine foldl_pres (P := fun gg => x ∈ edgeList gg) ?_ h
  intro b osym _ hb
  dsimp only
  split
  · split
    · exact edge_mem_addEdge b _ _ _ hb
    · exact hb
  · exact hb

theorem edge_mem_resolveCallSym {x : Edge3} (fd : FileData) (f : String)
    (g : CodeGraph) (sym : SymFact) (h : x ∈ edgeList g) :
    x ∈ edgeList (resolveCallSym fd f g sym) := by
  unfold resolveCallSym
  split
  · refine foldl_pres (P := fun gg => x ∈ edgeList gg) ?_ h
    intro b other _ hb
    exact edge_mem_resolveCallTarget _ _ b other hb
  · exact h

theorem edge_mem_resolveCalls {x : Edge3} (fd : FileData) (f : String)
    (d : ParsedFile) (g : CodeGraph) (h : x ∈ edgeList g) :
    x ∈ edgeList (resolveCalls fd f d g) := by
  unfold resolveCalls
  refine foldl_pres (P := fun gg => x ∈ edgeList gg) ?_ h
  intro b sym _ hb
  exact edge_mem_resolveCallSym fd f b sym hb

theorem edge_mem_resolveExtends {x : Edge3} (fd : FileData) (f : String)
    (d : ParsedFile) (g : CodeGraph) (h : x ∈ edgeList g) :
    x ∈ edgeList (resolveExtends fd f d g) := by
  unfold resolveExtends
  refine foldl_pres (P := fun gg => x ∈ edgeList gg) ?_ h
  intro b sym _ hb
  dsimp only
  split
  · exact hb
  · split
    · refine foldl_pres (P := fun gg => x ∈ edgeList gg) ?_ hb
      intro b2 other _ hb2
      refine foldl_pres (P := fun gg => x ∈ edgeList gg) ?_ hb2
      intro b3 osym _ hb3
      dsimp only
      split
      · split
        · exact edge_mem_addEdge b3 _ _ _ hb3
        · exact hb3
      · exact hb3
    · exact hb

/-! ## The edge-ends invariant of the relationship phase -/

/-- Relative to a fixed node map `N`: the store's node map is `N`, every edge
target is in `N`, and the source of every `extends` edge is in `N`. -/
def EdgeEndsOk (N : List (String × SymFact)) (g : CodeGraph) : Prop :=
  g.nodes = N
    ∧ ∀ x ∈ edgeList g,
        alHas N x.eto = true ∧ (x.etype = "extends" → alHas N x.efrom = true)

/-- The guarded `addEdge` of import and call resolution preserves the
invariant: the guard checks the target, and the type is not `extends`. -/
theorem edgeEndsOk_guard_ne {N : List (String × SymFact)} (g : CodeGraph)
    (a tid ty : String) (hty : ty ≠ "extends") (h : EdgeEndsOk N g) :
    EdgeEndsOk N (if alHas g.nodes tid then g.addEdge a tid ty else g) := by
  by_cases hg : alHas g.nodes tid = true
  · rw [if_pos hg]
    refine ⟨h.1, ?_⟩
    intro x hx
    rcases (mem_edgeList_addEdge g a tid ty).mp hx with hx2 | rfl
    · exact h.2 x hx2
    · exact ⟨h.1 ▸ hg, fun hcontra => absurd hcontra hty⟩
  · rw [if_neg hg]
    exact h

/-- The guarded `addEdge` of inheritance resolution preserves the invariant
when the source class id is known to be a node. -/
theorem edgeEndsOk_guard_ext {N : List (String × SymFact)} (g : CodeGraph)
    (a tid : String) (hfrom : alHas N a = true) (h : EdgeEndsOk N g) :
    EdgeEndsOk N (if alHas g.nodes tid then g.addEdge a tid "extends" else g) := by
  by_cases hg : alHas g.nodes tid = true
  · rw [if_pos hg]
    refine ⟨h.1, ?_⟩
    intro x hx
    rcases (mem_edgeList_addEdge g a tid "extends").mp hx with hx2 | rfl
    · exact h.2 x hx2
    · exact ⟨h.1 ▸ hg, fun _ => hfrom⟩
  · rw [if_neg hg]
    exact h

theorem edgeEndsOk_resolveImports {N : List (String × SymFact)} (fd : FileData)
    (f : String) (d : ParsedFile) (g : CodeGraph) (h : EdgeEndsOk N g) :
    EdgeEndsOk N (resolveImports fd f d g) := by
  unfold resolveImports
  refine foldl_pres (P := EdgeEndsOk N) ?_ h
  intro b imp _ hb
  dsimp only
  split
  · split
    · exact hb
    · split
      · exact hb
      · refine foldl_pres (P := EdgeEndsOk N) ?_ hb
        intro b2 sym _ hb2
        dsimp only
        split
        · exact edgeEndsOk_guard_ne b2 _ _ "imports" (by decide) hb2
        · exact hb2
  · exact hb

theorem edgeEndsOk_resolveCalls {N : List (String × SymFact)} (fd : FileData)
    (f : String) (d : ParsedFile) (g : CodeGraph) (h : EdgeEndsOk N g) :
    EdgeEndsOk N (resolveCalls fd f d g) := by
  unfold resolveCalls
  refine foldl_pres (P := EdgeEndsOk N) ?_ h
  intro b sym _ hb
  unfold resolveCallSym
  split
  · refine foldl_pres (P := EdgeEndsOk N) ?_ hb
    intro b2 other _ hb2
    unfold resolveCallTarget
    refine foldl_pres (P := EdgeEndsOk N) ?_ hb2
    intro b3 osym _ hb3
    dsimp only
    split
    · exact edgeEndsOk_guard_ne b3 _ _ "calls" (by decide) hb3
    · exact hb3
  · exact hb

theorem edgeEndsOk_resolveExtends (fd : FileData) (f : String) (d : ParsedFile)
    (hfd : (f, d) ∈ fd) (g : CodeGraph)
    (h : EdgeEndsOk (buildNodes fd).nodes g) :
    EdgeEndsOk (buildNodes fd).nodes (resolveExtends fd f d g) := by
  unfold resolveExtends
  refine foldl_pres (P := EdgeEndsOk (buildNodes fd).nodes) ?_ h
  intro b sym hsym hb
  dsimp only
  split
  · exact hb
  · rename_i sup hsup
    split
    · rename_i hcond
      have hclass : sym.stype = "class" := by
        have := (Bool.and_eq_true _ _).mp hcond
        simpa using this.1
      have hfrom : alHas (buildNodes fd).nodes (mkNodeId f sym.name sym.line) = true := by
        refine nodes_buildNodes_has fd f d sym hfd hsym ?_
        rw [hclass]
        decide
      refine foldl_pres (P := EdgeEndsOk (buildNodes fd).nodes) ?_ hb
      intro b2 other _ hb2
      refine foldl_pres (P := EdgeEndsOk (buildNodes fd).nodes) ?_ hb2
      intro b3 osym _ hb3
      dsimp only
      split
      · exact edgeEndsOk_guard_ext b3 _ _ hfrom hb3
      · exact hb3
    · exact hb

theorem edgeList_addFileNodes (g : CodeGraph) (fd : String × ParsedFile) :
    edgeList (addFileNodes g fd) = edgeList g := by
  unfold addFileNodes
  refine foldl_pres (P := fun (x : CodeGraph) => edgeList x = edgeList g) ?_ rfl
  intro b s _ hb
  dsimp only
  split
  · rw [edgeList_addNode]
    exact hb
  · exact hb

/-- The phase-1 store has no edges. -/
theorem edgeList_buildNodes (fd : FileData) : edgeList (buildNodes fd) = [] := by
  unfold buildNodes
  refine foldl_pres (P := fun (x : CodeGraph) => edgeList x = []) ?_ rfl
  intro b x _ hb
  rw [edgeList_addFileNodes]
  exact hb

/-- The full build satisfies the edge-ends invariant. -/
theorem edgeEndsOk_buildCodeGraph (fd : FileData) :
    EdgeEndsOk (buildNodes fd).nodes (buildCodeGraph fd) := by
  unfold buildCodeGraph
  refine foldl_pres (P := EdgeEndsOk (buildNodes fd).nodes) ?_ ?_
  · intro b x hx hb
    exact edgeEndsOk_resolveExtends fd x.1 x.2 (by simpa using hx) _
      (edgeEndsOk_resolveCalls fd x.1 x.2 _
        (edgeEndsOk_resolveImports fd x.1 x.2 _ hb))
  · refine ⟨rfl, ?_⟩
    intro x hx
    rw [edgeList_buildNodes] at hx
    cases hx

/-! ## Existence of resolved call edges -/

/-- Scanning a file entry that contains a matching `function` symbol adds the
corresponding `calls` edge (given that the node map is the phase-1 map, which
contains the target). -/
theorem resolveCallTarget_attains {N : List (String × SymFact)}
    (callerId callName : String) (other : String × ParsedFile) (s : SymFact)
    (hs : s ∈ other.2.symbols) (hst : s.stype = "function") (hn : s.name = callName)
    (hkey : alHas N (mkNodeId other.1 s.name s.line) = true)
    (g : CodeGraph) (hN : g.nodes = N) :
    (⟨callerId, mkNodeId other.1 s.name s.line, "calls"⟩ : Edge3)
      ∈ edgeList (resolveCallTarget callerId callName g other) := by
  unfold resolveCallTarget
  refine foldl_attain (P := fun (x : CodeGraph) => x.nodes = N)
    (Q := fun gg =>
      (⟨callerId, mkNodeId other.1 s.name s.line, "calls"⟩ : Edge3) ∈ edgeList gg)
    hs ?_ ?_ ?_ hN
  · intro b osym _ hb
    dsimp only
    split
    · split
      · exact hb
      · exact hb
    · exact hb
  · intro b osym _ hb
    dsimp only
    split
    · split
      · exact edge_mem_addEdge b _ _ _ hb
      · exact hb
    · exact hb
  · intro b hb
    dsimp only
    have hcond : (s.stype == "function" && s.name == callName) = true := by
      simp [hst, hn]
    rw [if_pos hcond]
    have hguard : alHas b.nodes (mkNodeId other.1 s.name s.line) = true := by
      rw [hb]; exact hkey
    rw [if_pos hguard]
    exact (mem_edgeList_addEdge b _ _ _).mpr (Or.inr rfl)

/-- Resolving one `call` symbol adds a `calls` edge to every matching
`function` node of every file entry. -/
theorem resolveCallSym_attains {N : List (String × SymFact)} (fd : FileData)
    (f : String) (c : SymFact) (hc : c.stype = "call")
    (other : String × ParsedFile) (hother : other ∈ fd) (s : SymFact)
    (hs : s ∈ other.2.symbols) (hst : s.stype = "function") (hn : s.name = c.name)
    (hkey : alHas N (mkNodeId other.1 s.name s.line) = true)
    (g : CodeGraph) (hN : g.nodes = N) :
    (⟨f ++ ":" ++ toString c.line, mkNodeId other.1 s.name s.line, "calls"⟩ : Edge3)
      ∈ edgeList (resolveCallSym fd f g c) := by
  unfold resolveCallSym
  rw [if_pos (by simp [hc] : (c.stype == "call") = true)]
  refine foldl_attain (P := fun (x : CodeGraph) => x.nodes = N)
    (Q := fun gg =>
      (⟨f ++ ":" ++ toString c.line, mkNodeId other.1 s.name s.line, "calls"⟩ : Edge3)
        ∈ edgeList gg)
    hother ?_ ?_ ?_ hN
  · intro b x _ hb
    rw [nodes_resolveCallTarget]
    exact hb
  · intro b x _ hb
    exact edge_mem_resolveCallTarget _ _ b x hb
  · intro b hb
    exact resolveCallTarget_attains _ c.name other s hs hst hn hkey b hb

/-- Call resolution for a file adds a `calls` edge for each of its `call`
symbols against each matching function node. -/
theorem resolveCalls_attains {N : List (String × SymFact)} (fd : FileData)
    (f : String) (d : ParsedFile) (c : SymFact) (hc : c ∈ d.symbols)
    (hct : c.stype = "call")
    (other : String × ParsedFile) (hother : other ∈ fd) (s : SymFact)
    (hs : s ∈ other.2.symbols) (hst : s.stype = "function") (hn : s.name = c.name)
    (hkey : alHas N (mkNodeId other.1 s.name s.line) = true)
    (g : CodeGraph) (hN : g.nodes = N) :
    (⟨f ++ ":" ++ toString c.line, mkNodeId other.1 s.name s.line, "calls"⟩ : Edge3)
      ∈ edgeList (resolveCalls fd f d g) := by
  unfold resolveCalls
  refine foldl_attain (P := fun (x : CodeGraph) => x.nodes = N)
    (Q := fun gg =>
      (⟨f ++ ":" ++ toString c.line, mkNodeId other.1 s.name s.line, "calls"⟩ : Edge3)
        ∈ edgeList gg)
    hc ?_ ?_ ?_ hN
  · intro b x _ hb
    rw [nodes_resolveCallSym]
    exact hb
  · intro b x _ hb
    exact edge_mem_resolveCallSym fd f b x hb
  · intro b hb
    exact resolveCallSym_attains fd f c hct other hother s hs hst hn hkey b hb

/-- The full build contains the `calls` edge for every call fact and every
matching function symbol of any file. -/
theorem buildCodeGraph_calls_edge (fd : FileData) (f : String) (d : ParsedFile)
    (hfd : (f, d) ∈ fd) (c : SymFact) (hc : c ∈ d.symbols) (hct : c.stype = "call")
    (f2 : String) (d2 : ParsedFile) (hfd2 : (f2, d2) ∈ fd)
    (s : SymFact) (hs : s ∈ d2.symbols) (hst : s.stype = "function")
    (hn : s.name = c.name) :
    (⟨f ++ ":" ++ toString c.line, mkNodeId f2 s.name s.line, "calls"⟩ : Edge3)
      ∈ edgeList (buildCodeGraph fd) := by
  have hkey : alHas (buildNodes fd).nodes (mkNodeId f2 s.name s.line) = true := by
    refine nodes_buildNodes_has fd f2 d2 s hfd2 hs ?_
    rw [hst]
    decide
  unfold buildCodeGraph
  refine foldl_attain (P := fun (x : CodeGraph) => x.nodes = (buildNodes fd).nodes)
    (Q := fun gg =>
      (⟨f ++ ":" ++ toString c.line, mkNodeId f2 s.name s.line, "calls"⟩ : Edge3)
        ∈ edgeList gg)
    hfd ?_ ?_ ?_ rfl
  · intro b x _ hb
    rw [nodes_resolveExtends, nodes_resolveCalls, nodes_resolveImports]
    exact hb
  · intro b x _ hb
    exact edge_mem_resolveExtends fd x.1 x.2 _
      (edge_mem_resolveCalls fd x.1 x.2 _ (edge_mem_resolveImports fd x.1 x.2 _ hb))
  · intro b hb
    have hb1 : (resolveImports fd f d b).nodes = (buildNodes fd).nodes := by
      rw [nodes_resolveImports]; exact hb
    exact edge_mem_resolveExtends fd f d _
      (resolveCalls_attains fd f d c hc hct (f2, d2) hfd2 s hs hst hn hkey _ hb1)

/-! ## Round-trip lemmas for the persistence format -/

theorem map_pair_eq_self {α : Type} {vf : String × α → α} :
    ∀ (l : List (String × α)), (∀ p ∈ l, vf p = p.2) →
      l.map (fun p => (p.1, vf p)) = l
  | [], _ => rfl
  | p :: l, h => by
    have hp : vf p = p.2 := h p (List.mem_cons_self _ _)
    simp only [List.map_cons, hp]
    rw [map_pair_eq_self l (fun q hq => h q (List.mem_cons_of_mem _ hq))]

theorem nodes_fromJSON (d : GraphJSON) :
    (CodeGraph.fromJSON d).nodes = d.nodes.foldl (fun m p => alSet m p.1 p.2) [] := by
  simp only [CodeGraph.fromJSON]
  have h3 : ∀ (es : List Edge3) (g : CodeGraph), (es.foldl loadEdgeJSON g).nodes = g.nodes := by
    intro es g
    refine foldl_pres (P := fun (x : CodeGraph) => x.nodes = g.nodes) ?_ rfl
    intro b e _ hb
    exact hb
  rw [h3]
  exact foldl_proj CodeGraph.nodes loadNodeJSON (fun m p => alSet m p.1 p.2)
    (fun b a => rfl) d.nodes _

theorem fileIndex_fromJSON (d : GraphJSON) :
    (CodeGraph.fromJSON d).fileIndex
      = d.fileIndex.foldl (fun fi p => alSet fi p.1 (jsSetOfList p.2)) [] := by
  simp only [CodeGraph.fromJSON]
  have h2 : ∀ (ns : List (String × SymFact)) (g : CodeGraph),
      (ns.foldl loadNodeJSON g).fileIndex = g.fileIndex := by
    intro ns g
    refine foldl_pres (P := fun (x : CodeGraph) => x.fileIndex = g.fileIndex) ?_ rfl
    intro b p _ hb
    exact hb
  have h3 : ∀ (es : List Edge3) (g : CodeGraph),
      (es.foldl loadEdgeJSON g).fileIndex = g.fileIndex := by
    intro es g
    refine foldl_pres (P := fun (x : CodeGraph) => x.fileIndex = g.fileIndex) ?_ rfl
    intro b e _ hb
    exact hb
  rw [h3, h2]
  rfl

theorem flatEdges_ensure_fold :
    ∀ (l : List (String × SymFact)) (m : List (String × List Edge)),
      flatEdges (l.foldl
        (fun m p => if alHas m p.1 then m else m ++ [(p.1, [])]) m) = flatEdges m := by
  intro l m
  refine foldl_pres (P := fun mm => flatEdges mm = flatEdges m) ?_ rfl
  intro b p _ hb
  dsimp only
  split
  · exact hb
  · rw [flatEdges_append]
    simpa [flatEdges] using hb

theorem flatEdges_load_perm :
    ∀ (ts : List Edge3) (m : List (String × List Edge)),
      (flatEdges (ts.foldl
        (fun m e => alAppend m e.efrom ⟨e.eto, e.etype⟩) m)).Perm (flatEdges m ++ ts)
  | [], m => by simp
  | e :: ts, m => by
    simp only [List.foldl_cons]
    refine (flatEdges_load_perm ts _).trans ?_
    have h1 : (flatEdges (alAppend m e.efrom ⟨e.eto, e.etype⟩)).Perm
        (flatEdges m ++ [e]) := by
      have := flatEdges_alAppend m e.efrom ⟨e.eto, e.etype⟩
      simpa using this
    refine (h1.append_right ts).trans ?_
    simp

theorem edgeList_fromJSON (d : GraphJSON) :
    (edgeList (CodeGraph.fromJSON d)).Perm d.edges := by
  have hedges : (CodeGraph.fromJSON d).edges
      = d.edges.foldl (fun m e => alAppend m e.efrom ⟨e.eto, e.etype⟩)
          (d.nodes.foldl
            (fun m p => if alHas m p.1 then m else m ++ [(p.1, [])]) []) := by
    simp only [CodeGraph.fromJSON]
    rw [foldl_proj CodeGraph.edges loadEdgeJSON
      (fun m e => alAppend m e.efrom ⟨e.eto, e.etype⟩) (fun b a => rfl)]
    rw [foldl_proj CodeGraph.edges loadNodeJSON
      (fun m p => if alHas m p.1 then m else m ++ [(p.1, [])]) (fun b a => rfl)]
    rfl
  unfold edgeList
  rw [hedges]
  refine (flatEdges_load_perm d.edges _).trans ?_
  rw [flatEdges_ensure_fold]
  simp [flatEdges]

/-! ## Reachability and traversal lemmas -/

theorem reach_refl (g : CodeGraph) (dir s : String) :
    ∀ n, reachableWithin g dir s s n = true
  | 0 => by simp [reachableWithin]
  | n + 1 => by simp [reachableWithin]

theorem reach_succ_of_neighbor (g : CodeGraph) (dir : String) (s t m : String)
    (n : Nat) (hm : m ∈ neighbors g dir s)
    (h : reachableWithin g dir m t n = true) :
    reachableWithin g dir s t (n + 1) = true := by
  show (s == t || (neighbors g dir s).any fun w => reachableWithin g dir w t n) = true
  simp only [Bool.or_eq_true, List.any_eq_true]
  exact Or.inr ⟨m, hm, h⟩

theorem reach_mono (g : CodeGraph) (dir : String) :
    ∀ (n : Nat) (s t : String), reachableWithin g dir s t n = true →
      reachableWithin g dir s t (n + 1) = true
  | 0, s, t, h => by
    have hs : s = t := by simpa [reachableWithin] using h
    subst hs
    exact reach_refl g dir s 1
  | n + 1, s, t, h => by
    simp only [reachableWithin, Bool.or_eq_true, List.any_eq_true] at h
    rcases h with h | ⟨m, hm, hr⟩
    · have hs : s = t := by simpa using h
      subst hs
      exact reach_refl g dir s (n + 2)
    · exact reach_succ_of_neighbor g dir s t m (n + 1) hm (reach_mono g dir n m t hr)

theorem reach_le (g : CodeGraph) (dir s t : String) {n m : Nat} (hnm : n ≤ m)
    (h : reachableWithin g dir s t n = true) :
    reachableWithin g dir s t m = true := by
  induction hnm with
  | refl => exact h
  | step _ ih => exact reach_mono g dir _ s t ih

theorem reach_step (g : CodeGraph) (dir : String) :
    ∀ (n : Nat) (s v m : String), reachableWithin g dir s v n = true →
      m ∈ neighbors g dir v → reachableWithin g dir s m (n + 1) = true
  | 0, s, v, m, h, hm => by
    have hs : s = v := by simpa [reachableWithin] using h
    subst hs
    exact reach_succ_of_neighbor g dir s m m 0 hm (reach_refl g dir m 0)
  | n + 1, s, v, m, h, hm => by
    simp only [reachableWithin, Bool.or_eq_true, List.any_eq_true] at h
    rcases h with h | ⟨w, hw, hr⟩
    · have hs : s = v := by simpa using h
      subst hs
      exact reach_succ_of_neighbor g dir s m m (n + 1) hm (reach_refl g dir m (n + 1))
    · exact reach_succ_of_neighbor g dir s m w (n + 1) hw (reach_step g dir n w v m hr hm)

/-- Every record accumulated by the traversal worker has an endpoint within
`d` hops of the start, provided the start state does and the current node is
within the budget implied by the remaining fuel. -/
theorem trav_anchor (g : CodeGraph) (dir s0 : String) (d : Nat) :
    ∀ (f : Nat) (v : String) (st : List String × List Conn),
      f ≤ d + 1 →
      reachableWithin g dir s0 v (d + 1 - f) = true →
      (∀ r ∈ st.2, reachableWithin g dir s0 r.efrom d = true
          ∨ reachableWithin g dir s0 r.eto d = true) →
      ∀ r ∈ (trav g dir f v st).2,
        reachableWithin g dir s0 r.efrom d = true
          ∨ reachableWithin g dir s0 r.eto d = true := by
  intro f
  induction f with
  | zero =>
    intro v st _ _ hst
    exact hst
  | succ f ih =>
    intro v st hf hv hst
    by_cases hmem : v ∈ st.1
    · simpa only [trav, if_pos hmem] using hst
    · simp only [trav, if_neg hmem]
      have hvd : reachableWithin g dir s0 v d = true := by
        refine reach_le g dir s0 v ?_ hv
        omega
      have hstep : d + 1 - f = (d + 1 - (f + 1)) + 1 := by omega
      have hout : ∀ (st' : List String × List Conn),
          (dir == "outgoing" || dir == "both") = true →
          (∀ r ∈ st'.2, reachableWithin g dir s0 r.efrom d = true
              ∨ reachableWithin g dir s0 r.eto d = true) →
          ∀ r ∈ ((outEdges g v).foldl
              (fun s e => trav g dir f e.dst
                (s.1, s.2 ++ [⟨v, e.dst, e.ty, alGet g.nodes v, alGet g.nodes e.dst⟩]))
              st').2,
            reachableWithin g dir s0 r.efrom d = true
              ∨ reachableWithin g dir s0 r.eto d = true := by
        intro st' hdir hst'
        refine foldl_pres
          (P := fun (s : List String × List Conn) =>
            ∀ r ∈ s.2, reachableWithin g dir s0 r.efrom d = true
              ∨ reachableWithin g dir s0 r.eto d = true) ?_ hst'
        intro b e he hb
        have hpush : ∀ r ∈ (b.1, b.2
            ++ [(⟨v, e.dst, e.ty, alGet g.nodes v, alGet g.nodes e.dst⟩ : Conn)]).2,
            reachableWithin g dir s0 r.efrom d = true
              ∨ reachableWithin g dir s0 r.eto d = true := by
          intro r hr
          rcases List.mem_append.mp hr with hr | hr
          · exact hb r hr
          · rcases List.mem_singleton.mp hr with rfl
            exact Or.inl hvd
        refine ih e.dst _ (by omega) ?_ hpush
        have hnb : e.dst ∈ neighbors g dir v := by
          unfold neighbors
          refine List.mem_append_left _ ?_
          rw [if_pos hdir]
          exact List.mem_map_of_mem _ he
        rw [hstep]
        exact reach_step g dir _ s0 v e.dst hv hnb
      have hin : ∀ (st' : List String × List Conn),
          (dir == "incoming" || dir == "both") = true →
          (∀ r ∈ st'.2, reachableWithin g dir s0 r.efrom d = true
              ∨ reachableWithin g dir s0 r.eto d = true) →
          ∀ r ∈ ((inEdges g v).foldl
              (fun s e => trav g dir f e.src
                (s.1, s.2 ++ [⟨e.src, v, e.ty, alGet g.nodes e.src, alGet g.nodes v⟩]))
              st').2,
            reachableWithin g dir s0 r.efrom d = true
              ∨ reachableWithin g dir s0 r.eto d = true := by
        intro st' hdir hst'
        refine foldl_pres
          (P := fun (s : List String × List Conn) =>
            ∀ r ∈ s.2, reachableWithin g dir s0 r.efrom d = true
              ∨ reachableWithin g dir s0 r.eto d = true) ?_ hst'
        intro b e he hb
        have hpush : ∀ r ∈ (b.1, b.2
            ++ [(⟨e.src, v, e.ty, alGet g.nodes e.src, alGet g.nodes v⟩ : Conn)]).2,
            reachableWithin g dir s0 r.efrom d = true
              ∨ reachableWithin g dir s0 r.eto d = true := by
          intro r hr
          rcases List.mem_append.mp hr with hr | hr
          · exact hb r hr
          · rcases List.mem_singleton.mp hr with rfl
            exact Or.inr hvd
        refine ih e.src _ (by omega) ?_ hpush
        have hnb : e.src ∈ neighbors g dir v := by
          unfold neighbors
          refine List.mem_append_right _ ?_
          rw [if_pos hdir]
          exact List.mem_map_of_mem _ he
        rw [hstep]
        exact reach_step g dir _ s0 v e.src hv hnb
      by_cases h1 : (dir == "outgoing" || dir == "both") = true
      · by_cases h2 : (dir == "incoming" || dir == "both") = true
        · simp only [if_pos h1, if_pos h2]
          exact hin _ h2 (hout _ h1 hst)
        · simp only [if_pos h1, if_neg h2]
          exact hout _ h1 hst
      · by_cases h2 : (dir == "incoming" || dir == "both") = true
        · simp only [if_neg h1, if_pos h2]
          exact hin _ h2 hst
        · simp only [if_neg h1, if_neg h2]
          exact hst

/-- The visited list of the traversal worker stays duplicate-free. -/
theorem trav_nodup (g : CodeGraph) (dir : String) :
    ∀ (f : Nat) (v : String) (st : List String × List Conn),
      st.1.Nodup → ((trav g dir f v st).1).Nodup := by
  intro f
  induction f with
  | zero =>
    intro v st h
    exact h
  | succ f ih =>
    intro v st h
    by_cases hmem : v ∈ st.1
    · simpa only [trav, if_pos hmem] using h
    · simp only [trav, if_neg hmem]
      have h1 : (st.1 ++ [v]).Nodup := by
        simp [List.nodup_append, h, hmem]
      have hout : ∀ (st' : List String × List Conn), st'.1.Nodup →
          (((outEdges g v).foldl
            (fun s e => trav g dir f e.dst
              (s.1, s.2 ++ [⟨v, e.dst, e.ty, alGet g.nodes v, alGet g.nodes e.dst⟩]))
            st').1).Nodup := by
        intro st' h'
        refine foldl_pres (P := fun (s : List String × List Conn) => s.1.Nodup) ?_ h'
        intro b e _ hb
        exact ih e.dst _ hb
      have hin : ∀ (st' : List String × List Conn), st'.1.Nodup →
          (((inEdges g v).foldl
            (fun s e => trav g dir f e.src
              (s.1, s.2 ++ [⟨e.src, v, e.ty, alGet g.nodes e.src, alGet g.nodes v⟩]))
            st').1).Nodup := by
        intro st' h'
        refine foldl_pres (P := fun (s : List String × List Conn) => s.1.Nodup) ?_ h'
        intro b e _ hb
        exact ih e.src _ hb
      by_cases hc1 : (dir == "outgoing" || dir == "both") = true
      · by_cases hc2 : (dir == "incoming" || dir == "both") = true
        · simp only [if_pos hc1, if_pos hc2]
          exact hin _ (hout _ h1)
        · simp only [if_pos hc1, if_neg hc2]
          exact hout _ h1
      · by_cases hc2 : (dir == "incoming" || dir == "both") = true
        · simp only [if_neg hc1, if_pos hc2]
          exact hin _ h1
        · simp only [if_neg hc1, if_neg hc2]
          exact h1

/-! ## Search lemmas -/

theorem insertByScore_perm (x : SearchResult) :
    ∀ (l : List SearchResult), (insertByScore x l).Perm (x :: l)
  | [] => List.Perm.refl _
  | y :: ys => by
    unfold insertByScore
    split
    · exact List.Perm.refl _
    · exact ((insertByScore_perm x ys).cons y).trans (List.Perm.swap x y ys)

theorem sortByScoreDesc_perm :
    ∀ (l : List SearchResult), (sortByScoreDesc l).Perm l
  | [] => List.Perm.refl _
  | x :: xs =>
    (insertByScore_perm x (sortByScoreDesc xs)).trans ((sortByScoreDesc_perm xs).cons x)

theorem insertByScore_pairwise (x : SearchResult) :
    ∀ (l : List SearchResult),
      l.Pairwise (fun a b => b.score ≤ a.score) →
      (insertByScore x l).Pairwise (fun a b => b.score ≤ a.score)
  | [], _ => by simp [insertByScore]
  | y :: ys, h => by
    unfold insertByScore
    split
    · rename_i hxy
      refine List.pairwise_cons.mpr ⟨?_, h⟩
      intro z hz
      rcases List.mem_cons.mp hz with rfl | hz
      · exact hxy
      · exact le_trans ((List.pairwise_cons.mp h).1 z hz) hxy
    · rename_i hxy
      push_neg at hxy
      refine List.pairwise_cons.mpr ⟨?_, insertByScore_pairwise x ys (List.pairwise_cons.mp h).2⟩
      intro z hz
      have hz2 := (insertByScore_perm x ys).mem_iff.mp hz
      rcases List.mem_cons.mp hz2 with rfl | hz3
      · exact le_of_lt hxy
      · exact (List.pairwise_cons.mp h).1 z hz3

theorem sortByScoreDesc_pairwise :
    ∀ (l : List SearchResult),
      (sortByScoreDesc l).Pairwise (fun a b => b.score ≤ a.score)
  | [] => by simp [sortByScoreDesc]
  | x :: xs => insertByScore_pairwise x _ (sortByScoreDesc_pairwise xs)

/-- Score characterization of the unsorted match list: a result scores 2
exactly when its name matched, 1 otherwise, and it matched at all. -/
theorem searchMatches_score (g : CodeGraph) (q : String) (ty : Option String) :
    ∀ r ∈ searchMatches g q ty,
      r.score = (if nameMatches q r.node then 2 else 1)
        ∧ (nameMatches q r.node || fileMatches q r.node) = true := by
  intro r hr
  rcases List.mem_filterMap.mp hr with ⟨p, _, hf⟩
  have key : ∀ (cond : Bool),
      (if cond = true then none
       else if (nameMatches q p.2 || fileMatches q p.2) = true then
         some (⟨p.1, p.2, if nameMatches q p.2 = true then 2 else 1⟩ : SearchResult)
       else none) = some r →
      r.score = (if nameMatches q r.node then 2 else 1)
        ∧ (nameMatches q r.node || fileMatches q r.node) = true := by
    intro cond hf2
    by_cases hc : cond = true
    · rw [if_pos hc] at hf2
      cases hf2
    · rw [if_neg hc] at hf2
      by_cases h2 : (nameMatches q p.2 || fileMatches q p.2) = true
      · rw [if_pos h2] at hf2
        have := Option.some.inj hf2
        subst this
        exact ⟨rfl, h2⟩
      · rw [if_neg h2] at hf2
        cases hf2
  exact key _ hf

/-! ## First-match lemmas for import candidate resolution -/

theorem firstExisting_eq_some (fd : FileData) :
    ∀ (cs : List String) (i : Nat) (h : i < cs.length),
      alHas fd (stripDotSlash (cs.get ⟨i, h⟩)) = true →
      (∀ k (hk : k < i),
        alHas fd (stripDotSlash (cs.get ⟨k, Nat.lt_trans hk h⟩)) = false) →
      firstExisting fd cs = some (stripDotSlash (cs.get ⟨i, h⟩))
  | [], i, h => by simp at h
  | c :: cs, 0, h => by
    intro hy _
    show (if alHas fd (stripDotSlash c) = true then some (stripDotSlash c)
          else firstExisting fd cs) = some (stripDotSlash ((c :: cs).get ⟨0, h⟩))
    have hy2 : alHas fd (stripDotSlash c) = true := hy
    rw [if_pos hy2]
    rfl
  | c :: cs, i + 1, h => by
    intro hy hk
    show (if alHas fd (stripDotSlash c) = true then some (stripDotSlash c)
          else firstExisting fd cs)
        = some (stripDotSlash ((c :: cs).get ⟨i + 1, h⟩))
    have h0 : alHas fd (stripDotSlash c) = false := hk 0 (Nat.succ_pos i)
    rw [if_neg (by simp [h0])]
    exact firstExisting_eq_some fd cs i (Nat.lt_of_succ_lt_succ h) hy
      (fun k hk2 => hk (k + 1) (Nat.succ_lt_succ hk2))

theorem firstExisting_eq_none (fd : FileData) :
    ∀ (cs : List String), (∀ c ∈ cs, alHas fd (stripDotSlash c) = false) →
      firstExisting fd cs = none
  | [], _ => rfl
  | c :: cs, h => by
    show (if alHas fd (stripDotSlash c) = true then some (stripDotSlash c)
          else firstExisting fd cs) = none
    rw [if_neg (by simp [h c (List.mem_cons_self _ _)])]
    exact firstExisting_eq_none fd cs (fun x hx => h x (List.mem_cons_of_mem _ hx))

/-! ## Concrete fixtures used by witnesses and counterexamples -/

/-- A function declaration fact, as in `a.js` declaring `function foo(){}`. -/
def symFooFn : SymFact :=
  { stype := "function", name := "foo", file := "a.js", line := 1 }

/-- A call fact, as in `b.js` calling `foo()` on line 2. -/
def symFooCall : SymFact :=
  { stype := "call", name := "foo", file := "b.js", line := 2 }

/-- A two-file project: `a.js` declares `foo`, `b.js` calls it. -/
def exFileData : FileData :=
  [("a.js", { symbols := [symFooFn], imports := [], exports := [] }),
   ("b.js", { symbols := [symFooCall], imports := [], exports := [] })]

/-- A tiny loaded store with one `calls` edge from node `a` to node `b`. -/
def exGraphC1 : CodeGraph :=
  { nodes := [("a", symFooFn), ("b", symFooCall)]
    edges := [("a", [⟨"b", "calls"⟩]), ("b", [])]
    reverseEdges := [("b", [⟨"a", "calls"⟩]), ("a", [])]
    fileIndex := [("a.js", ["a"]), ("b.js", ["b"])]
    projectHash := none
    metadata := { createdAt := "", updatedAt := "", projectPath := none } }

/-- A base class fact in `base.js`. -/
def symBase : SymFact :=
  { stype := "class", name := "Base", file := "base.js", line := 1 }

/-- A derived class fact in `derived.js` extending `Base`. -/
def symDerived : SymFact :=
  { stype := "class", name := "Derived", file := "derived.js", line := 1
    superClass := some "Base" }

/-- A two-file project with a class-inheritance relationship. -/
def exFileDataExt : FileData :=
  [("base.js", { symbols := [symBase], imports := [], exports := [] }),
   ("derived.js", { symbols := [symDerived], imports := [], exports := [] })]

/-- A project whose only file is `a.ts` (so the second import candidate of
`./a` is the first that exists). -/
def exFileData7 : FileData :=
  [("a.ts", { symbols := [], imports := [], exports := [] })]

/-- A store with one node whose name matches `alpha` and one node that
matches `alpha` only through its file path. -/
def exGraphC8 : CodeGraph :=
  { nodes :=
      [("x.js:alpha:1", { stype := "function", name := "alpha", file := "x.js", line := 1 }),
       ("alpha.js:beta:1", { stype := "function", name := "beta", file := "alpha.js", line := 1 })]
    edges := [], reverseEdges := [], fileIndex := []
    projectHash := none
    metadata := { createdAt := "", updatedAt := "", projectPath := none } }

/-! ## Claim theorems -/

/-- Claim C1, counterexample: `getConnections(id, dir, 0)` is claimed to
return no edges at all, but on a store with a single edge leaving the start
node the call with depth 0 returns that edge — an edge reachable only at hop
distance 1 > 0.  This falsifies the claim as stated. -/
theorem claim_C1_counterexample :
    exGraphC1.getConnections "a" "outgoing" 0
      = [⟨"a", "b", "calls", some symFooFn, some symFooCall⟩] := by
  decide

/-- Claim C1 (amended): the traversal returns edges up to one hop beyond the
depth bound: every record returned by `getConnections(id, dir, d)` has an
endpoint (the node at which it was expanded) within `d` hops of the start, so
a returned edge is reachable within `d + 1` hops — not `d` as claimed — and
depth 0 returns the start node's own incident edges rather than none. -/
theorem claim_C1 (g : CodeGraph) (id dir : String) (d : Nat) :
    ∀ r ∈ g.getConnections id dir d,
      reachableWithin g dir id r.efrom d = true
        ∨ reachableWithin g dir id r.eto d = true := by
  intro r hr
  refine trav_anchor g dir id d (d + 1) id ([], []) (Nat.le_refl _) ?_ ?_ r hr
  · have : d + 1 - (d + 1) = 0 := by omega
    rw [this]
    simp [reachableWithin]
  · intro r hr
    cases hr

/-- Witness for the amended C1 at a concrete store, edge and depth. -/
theorem claim_C1_witness :
    reachableWithin exGraphC1 "outgoing" "a" "a" 0 = true
      ∨ reachableWithin exGraphC1 "outgoing" "a" "b" 0 = true :=
  claim_C1 exGraphC1 "a" "outgoing" 0
    ⟨"a", "b", "calls", some symFooFn, some symFooCall⟩ (by decide)

/-- Claim C3: deserializing the serialized form of a store (`fromJSON` after
`toJSON`) reproduces the node map exactly, the edge multiset up to
permutation, and the file index exactly.  The hypotheses state that the store
is a well-formed image of the JavaScript data structures: map keys are unique
and the per-file id sets are duplicate-free. -/
theorem claim_C3 (g : CodeGraph)
    (h1 : (keysOf g.nodes).Nodup)
    (h2 : (keysOf g.fileIndex).Nodup)
    (h3 : ∀ p ∈ g.fileIndex, p.2.Nodup) :
    (CodeGraph.fromJSON g.toJSON).nodes = g.nodes
      ∧ (edgeList (CodeGraph.fromJSON g.toJSON)).Perm (edgeList g)
      ∧ (CodeGraph.fromJSON g.toJSON).fileIndex = g.fileIndex := by
  refine ⟨?_, ?_, ?_⟩
  · rw [nodes_fromJSON]
    have := foldl_alSet_fresh (α := SymFact) Prod.snd g.toJSON.nodes [] h1
      (fun k _ => rfl)
    rw [this]
    show g.nodes.map (fun p => (p.1, p.2)) = g.nodes
    exact map_pair_eq_self g.nodes (fun p _ => rfl)
  · exact edgeList_fromJSON g.toJSON
  · rw [fileIndex_fromJSON]
    have := foldl_alSet_fresh (α := List String) (fun p => jsSetOfList p.2)
      g.toJSON.fileIndex [] h2 (fun k _ => rfl)
    rw [this]
    show g.fileIndex.map (fun p => (p.1, jsSetOfList p.2)) = g.fileIndex
    exact map_pair_eq_self g.fileIndex (fun p hp => jsSetOfList_of_nodup p.2 (h3 p hp))

/-- Witness for C3 at a concrete store with nodes, a duplicated edge and a
file index. -/
theorem claim_C3_witness :
    (keysOf exGraphC1.nodes).Nodup
      ∧ (keysOf exGraphC1.fileIndex).Nodup
      ∧ (∀ p ∈ exGraphC1.fileIndex, p.2.Nodup)
      ∧ ((CodeGraph.fromJSON exGraphC1.toJSON).nodes = exGraphC1.nodes
          ∧ (edgeList (CodeGraph.fromJSON exGraphC1.toJSON)).Perm (edgeList exGraphC1)
          ∧ (CodeGraph.fromJSON exGraphC1.toJSON).fileIndex = exGraphC1.fileIndex) :=
  ⟨by decide, by decide, by decide,
    claim_C3 exGraphC1 (by decide) (by decide) (by decide)⟩

/-- Claim C4: the traversal of `getConnections` is total for every store —
including stores whose `extends` or `calls` edges form cycles, as the
embedding `trav` is defined by structural recursion on the depth budget, so it
terminates for any finite depth — and each node id is expanded at most once
per call: the visited set it builds is duplicate-free (a node is expanded
exactly when it is appended to the visited set). -/
theorem claim_C4 (g : CodeGraph) (id dir : String) (d : Nat) :
    (g.visitedOf id dir d).Nodup :=
  trav_nodup g dir (d + 1) id ([], []) List.nodup_nil

/-- Claim C2, counterexample: the claim states both endpoints of every
materialized edge are present in the node set, but the `calls` edge created
for the call fact in `b.js` has the synthetic call-site id `b.js:2` as its
source, and that id is never added as a node. -/
theorem claim_C2_counterexample :
    (⟨"b.js:2", "a.js:foo:1", "calls"⟩ : Edge3) ∈ edgeList (buildCodeGraph exFileData)
      ∧ alHas (buildCodeGraph exFileData).nodes "b.js:2" = false := by
  decide

/-- Claim C2 (amended): after a build, every materialized edge has its target
id present in the node set (the resolver checks the target before each
`addEdge`), and for `extends` edges the source id is a node as well; the
source ids of `imports` and `calls` edges are synthetic import- or call-site ids
that need not be nodes. -/
theorem claim_C2 (fd : FileData) :
    ∀ x ∈ edgeList (buildCodeGraph fd),
      alHas (buildCodeGraph fd).nodes x.eto = true
        ∧ (x.etype = "extends" → alHas (buildCodeGraph fd).nodes x.efrom = true) := by
  intro x hx
  have h := (edgeEndsOk_buildCodeGraph fd).2 x hx
  rw [nodes_buildCodeGraph]
  exact h

/-- Witness for the amended C2 at a concrete inheritance edge, exercising
both the target conjunct and the `extends`-source conjunct. -/
theorem claim_C2_witness :
    alHas (buildCodeGraph exFileDataExt).nodes "base.js:Base:1" = true
      ∧ alHas (buildCodeGraph exFileDataExt).nodes "derived.js:Derived:1" = true := by
  have h := claim_C2 exFileDataExt
    ⟨"derived.js:Derived:1", "base.js:Base:1", "extends"⟩ (by decide)
  exact ⟨h.1, h.2 rfl⟩

/-- Claim C5: after a build, the target id of every edge in the store is
present in the node set: each of the three resolution loops calls `addEdge`
only under a `nodes.has(targetId)` guard, and the relationship phase never
changes the node map. -/
theorem claim_C5 (fd : FileData) :
    ∀ x ∈ edgeList (buildCodeGraph fd),
      alHas (buildCodeGraph fd).nodes x.eto = true := by
  intro x hx
  rw [nodes_buildCodeGraph]
  exact ((edgeEndsOk_buildCodeGraph fd).2 x hx).1

/-- Witness for C5 at the concrete call edge of the two-file project. -/
theorem claim_C5_witness :
    alHas (buildCodeGraph exFileData).nodes "a.js:foo:1" = true :=
  claim_C5 exFileData ⟨"b.js:2", "a.js:foo:1", "calls"⟩ (by decide)

/-- Claim C6: for every call fact, the resolver scans the symbols of every
file and adds a `calls` edge from the synthetic call-site id
`` `${file}:${line}` `` to each `function` node whose name equals the callee
name, in any file (including the caller's own), so one call fact can yield
edges to several same-named functions. -/
theorem claim_C6 (fd : FileData) (f : String) (d : ParsedFile)
    (hfd : (f, d) ∈ fd) (c : SymFact) (hc : c ∈ d.symbols) (hct : c.stype = "call")
    (f2 : String) (d2 : ParsedFile) (hfd2 : (f2, d2) ∈ fd)
    (s : SymFact) (hs : s ∈ d2.symbols) (hst : s.stype = "function")
    (hn : s.name = c.name) :
    (⟨f ++ ":" ++ toString c.line, mkNodeId f2 s.name s.line, "calls"⟩ : Edge3)
      ∈ edgeList (buildCodeGraph fd) :=
  buildCodeGraph_calls_edge fd f d hfd c hc hct f2 d2 hfd2 s hs hst hn

/-- Witness for C6: the cross-file call of the two-file project produces its
`calls` edge. -/
theorem claim_C6_witness :
    (⟨"b.js" ++ ":" ++ toString (2 : Nat), mkNodeId "a.js" "foo" 1, "calls"⟩ : Edge3)
      ∈ edgeList (buildCodeGraph exFileData) :=
  claim_C6 exFileData "b.js" { symbols := [symFooCall], imports := [], exports := [] }
    (by decide) symFooCall (by decide) rfl
    "a.js" { symbols := [symFooFn], imports := [], exports := [] } (by decide)
    symFooFn (by decide) rfl rfl

/-- Claim C7: for a relative import, the candidate paths are the join of the
importer directory with the import source followed by each suffix `.js`,
`.ts`, `.jsx`, `.tsx`, `/index.js`, `/index.ts` in exactly that order, and the
resolver links against the first candidate present in the parsed file map,
never considering later candidates: if candidate `i` exists and all earlier
ones do not, the loop returns candidate `i`; if none exists it returns
nothing. -/
theorem claim_C7 (fd : FileData) (file source : String) :
    importCandidates file source
      = [joinPath (dirname file) source ++ ".js",
         joinPath (dirname file) source ++ ".ts",
         joinPath (dirname file) source ++ ".jsx",
         joinPath (dirname file) source ++ ".tsx",
         joinPath (dirname file) source ++ "/index.js",
         joinPath (dirname file) source ++ "/index.ts"]
      ∧ (∀ (i : Nat) (h : i < (importCandidates file source).length),
          alHas fd (stripDotSlash ((importCandidates file source).get ⟨i, h⟩)) = true →
          (∀ k (hk : k < i),
            alHas fd (stripDotSlash
              ((importCandidates file source).get ⟨k, Nat.lt_trans hk h⟩)) = false) →
          findCandidate fd file source
            = some (stripDotSlash ((importCandidates file source).get ⟨i, h⟩)))
      ∧ ((∀ c ∈ importCandidates file source, alHas fd (stripDotSlash c) = false) →
          findCandidate fd file source = none) :=
  ⟨rfl,
   fun i h => firstExisting_eq_some fd (importCandidates file source) i h,
   fun h => firstExisting_eq_none fd (importCandidates file source) h⟩

/-- Witness for C7: in a project containing only `a.ts`, the import `./a`
from `b.js` resolves to the second candidate `a.ts` (the first, `a.js`, does
not exist). -/
theorem claim_C7_witness :
    findCandidate exFileData7 "b.js" "./a" = some "a.ts" := by
  have h := (claim_C7 exFileData7 "b.js" "./a").2.1 1 (by decide) (by decide)
    (by decide)
  exact h

/-- Claim C8: `searchNodes` returns a permutation of the case-insensitive
match list (name or file-path substring match, with the truthy exact type
filter), scores a result 2 exactly when its name matches and 1 when only its
file path matches, and sorts descending by score, so every name-matching
result is ranked strictly above every result matching only by file path. -/
theorem claim_C8 (g : CodeGraph) (q : String) (ty : Option String) :
    (g.searchNodes q ty).Perm (searchMatches g q ty)
      ∧ (∀ r ∈ g.searchNodes q ty,
          r.score = (if nameMatches q r.node then 2 else 1)
            ∧ (nameMatches q r.node || fileMatches q r.node) = true)
      ∧ (g.searchNodes q ty).Pairwise (fun a b => b.score ≤ a.score)
      ∧ (∀ (i j : Fin (g.searchNodes q ty).length),
          nameMatches q ((g.searchNodes q ty).get i).node = true →
          nameMatches q ((g.searchNodes q ty).get j).node = false →
          i.val < j.val) := by
  have hperm : (g.searchNodes q ty).Perm (searchMatches g q ty) :=
    sortByScoreDesc_perm (searchMatches g q ty)
  have hscore : ∀ r ∈ g.searchNodes q ty,
      r.score = (if nameMatches q r.node then 2 else 1)
        ∧ (nameMatches q r.node || fileMatches q r.node) = true := by
    intro r hr
    exact searchMatches_score g q ty r (hperm.mem_iff.mp hr)
  have hsorted : (g.searchNodes q ty).Pairwise (fun a b => b.score ≤ a.score) :=
    sortByScoreDesc_pairwise (searchMatches g q ty)
  refine ⟨hperm, hscore, hsorted, ?_⟩
  intro i j hi hj
  by_contra hcon
  push_neg at hcon
  have hine : i.val ≠ j.val := by
    intro h
    have : i = j := Fin.ext h
    subst this
    rw [hi] at hj
    cases hj
  have hji : j < i := by
    rcases Nat.lt_or_ge j.val i.val with h | h
    · exact h
    · exact absurd (Nat.le_antisymm hcon h) (fun he => hine he.symm)
  have hrel := List.pairwise_iff_get.mp hsorted j i hji
  have hmi : (g.searchNodes q ty).get i ∈ g.searchNodes q ty :=
    List.get_mem (g.searchNodes q ty) i.1 i.2
  have hmj : (g.searchNodes q ty).get j ∈ g.searchNodes q ty :=
    List.get_mem (g.searchNodes q ty) j.1 j.2
  have hsi := hscore _ hmi
  have hsj := hscore _ hmj
  rw [hi] at hsi
  rw [hj] at hsj
  simp at hsi hsj hrel
  omega

/-- Witness for C8: with query `alpha`, the name-matching node is ranked
strictly above the node matching only through its file path. -/
theorem claim_C8_witness : (0 : Nat) < 1 :=
  (claim_C8 exGraphC8 "alpha" none).2.2.2 ⟨0, by decide⟩ ⟨1, by decide⟩
    (by decide) (by decide)

/-- Claim C9: deleting the cache entry of a project that has none is not an
error: `deleteGraph` catches `ENOENT`, returns `false` and leaves the cache
directory unchanged, and the `clear_cache` handler replies without raising
that no cache was found. -/
theorem claim_C9 (fs : List String) (p : String)
    (h : graphFilePath p ∉ fs) :
    deleteGraph fs p = .ok (fs, false)
      ∧ clearCacheHandler fs p
          = .ok (fs, ⟨false, "No cache found for project"⟩) := by
  have hd : deleteGraph fs p = .ok (fs, false) := by
    unfold deleteGraph unlinkFs
    rw [if_neg h]
  refine ⟨hd, ?_⟩
  unfold clearCacheHandler
  rw [hd]
  rfl

/-- Witness for C9 on an empty cache directory. -/
theorem claim_C9_witness :
    graphFilePath "proj" ∉ ([] : List String)
      ∧ (deleteGraph [] "proj" = .ok ([], false)
          ∧ clearCacheHandler [] "proj"
              = .ok ([], ⟨false, "No cache found for project"⟩)) :=
  ⟨by decide, claim_C9 [] "proj" (by decide)⟩

/-- Claim C10: loading is atomic with respect to the current store: when the
cache entry is absent or its persisted document is malformed, `loadGraph`
returns `false` and the loaded store is unchanged; the store is replaced only
when the document was read and deserialized successfully. -/
theorem claim_C10 (cacheFs : List (String × CacheDoc)) (cur : CodeGraph)
    (p : String) :
    (alGet cacheFs (graphFilePath p) = none →
        loadGraph cacheFs cur p = (cur, false))
      ∧ (alGet cacheFs (graphFilePath p) = some .malformed →
          loadGraph cacheFs cur p = (cur, false))
      ∧ (∀ d, alGet cacheFs (graphFilePath p) = some (.parsed d) →
          loadGraph cacheFs cur p = (CodeGraph.fromJSON d, true)) := by
  refine ⟨?_, ?_, ?_⟩
  · intro h
    unfold loadGraph
    rw [h]
  · intro h
    unfold loadGraph
    rw [h]
  · intro d h
    unfold loadGraph
    rw [h]

/-- Witness for C10 on an empty cache: loading fails and the current store is
untouched. -/
theorem claim_C10_witness :
    loadGraph [] CodeGraph.empty "proj" = (CodeGraph.empty, false) :=
  (claim_C10 [] CodeGraph.empty "proj").1 rfl
